import Mathlib

/-!
Verification of the key-market ledger engine of the SolSocial repository.

The bonding-curve pricing utilities are embedded from
`src/app/src/utils/bonding-curve.ts`.  That module computes with `BN`
(arbitrary-precision integers); every quantity appearing in the properties
below is a non-negative lamport amount or key count (`u64` values in the
data model), so the embedding uses `Nat`, with `/` denoting floor division
exactly as `BN.div` behaves on non-negative operands.  `Nat` subtraction
truncates at zero; the only place the source can subtract below zero
(`calculateSellPrice` with `amount > currentSupply`) lies outside the domain
of every property stated here.
-/

namespace BondingCurve

/-- Base price in lamports (0.001 SOL), `CURVE_CONSTANTS.BASE_PRICE`. -/
def BASE_PRICE : Nat := 1000000

/-- Price increment factor, `CURVE_CONSTANTS.PRICE_INCREMENT`. -/
def PRICE_INCREMENT : Nat := 16000

/-- Divisor for calculations, `CURVE_CONSTANTS.DIVISOR`. -/
def DIVISOR : Nat := 1000000

/-- Protocol fee percentage (5%), `CURVE_CONSTANTS.PROTOCOL_FEE_PERCENT`. -/
def PROTOCOL_FEE_PERCENT : Nat := 5

/-- Creator fee percentage (5%), `CURVE_CONSTANTS.CREATOR_FEE_PERCENT`. -/
def CREATOR_FEE_PERCENT : Nat := 5

/-- Fee divisor (100 for percentage), `CURVE_CONSTANTS.FEE_DIVISOR`. -/
def FEE_DIVISOR : Nat := 100

/-- The protocol fee rate expressed in basis points: 5% = 500 bp.  The
source stores the rate as the pair (`PROTOCOL_FEE_PERCENT`, `FEE_DIVISOR`);
500/10000 is the same protocol-wide constant in basis-point form. -/
def protocolFeeBp : Nat := 500

/-- The creator fee rate expressed in basis points: 5% = 500 bp. -/
def creatorFeeBp : Nat := 500

/-- Result record of `calculateBuyPrice` / `calculateSellPrice`
(`PriceCalculation` interface of the source). -/
structure PriceCalculation where
  price : Nat
  protocolFee : Nat
  creatorFee : Nat
  totalCost : Nat
  deriving Repr, DecidableEq

/-- Current price for a single key at the given supply, from
`getCurrentKeyPrice`:  `BASE_PRICE + supply * PRICE_INCREMENT / DIVISOR`.
The buy, sell and market-cap loops of the source inline this exact
expression; the embedding reuses this definition for the shared formula. -/
def getCurrentKeyPrice (supply : Nat) : Nat :=
  BASE_PRICE + supply * PRICE_INCREMENT / DIVISOR

/-- Accumulator of the `calculateBuyPrice` loop: key `i` (for `i` from `0`
to `amount - 1`) is priced at supply `currentSupply + i` and the prices are
summed left to right. -/
def buyRaw (currentSupply : Nat) : Nat → Nat
  | 0 => 0
  | k + 1 => buyRaw currentSupply k + getCurrentKeyPrice (currentSupply + k)

/-- Embedding of `calculateBuyPrice`: the raw curve total plus the two
5%-of-raw fees, each floored by integer division. -/
def calculateBuyPrice (currentSupply amount : Nat) : PriceCalculation :=
  let totalPrice := buyRaw currentSupply amount
  let protocolFee := totalPrice * PROTOCOL_FEE_PERCENT / FEE_DIVISOR
  let creatorFee := totalPrice * CREATOR_FEE_PERCENT / FEE_DIVISOR
  { price := totalPrice
    protocolFee := protocolFee
    creatorFee := creatorFee
    totalCost := totalPrice + protocolFee + creatorFee }

/-- Accumulator of the `calculateSellPrice` loop: key `i` (for `i` from `0`
to `amount - 1`) is priced at supply `currentSupply - (i + 1)`. -/
def sellRaw (currentSupply : Nat) : Nat → Nat
  | 0 => 0
  | k + 1 => sellRaw currentSupply k + getCurrentKeyPrice (currentSupply - (k + 1))

/-- Embedding of `calculateSellPrice`: the raw curve total with the two
5%-of-raw fees deducted; `totalCost` is the amount the seller receives. -/
def calculateSellPrice (currentSupply amount : Nat) : PriceCalculation :=
  let totalPrice := sellRaw currentSupply amount
  let protocolFee := totalPrice * PROTOCOL_FEE_PERCENT / FEE_DIVISOR
  let creatorFee := totalPrice * CREATOR_FEE_PERCENT / FEE_DIVISOR
  { price := totalPrice
    protocolFee := protocolFee
    creatorFee := creatorFee
    totalCost := totalPrice - protocolFee - creatorFee }

/-- Loop of `calculateMarketCap`: sums the key price at each supply level
`0, 1, ..., supply - 1`, inlining the same per-key formula. -/
def marketCapLoop : Nat → Nat
  | 0 => 0
  | k + 1 => marketCapLoop k + getCurrentKeyPrice k

/-- Embedding of `calculateMarketCap`: zero for zero supply, otherwise the
summation loop over all existing keys. -/
def calculateMarketCap (supply : Nat) : Nat :=
  if supply = 0 then 0 else marketCapLoop supply

/-- Result of `validateTrade` in the source: a validity flag and an
optional error message. -/
structure ValidationResult where
  isValid : Bool
  error : Option String
  deriving Repr, DecidableEq

/-- Embedding of `validateTrade`.  The source checks `amount.lte(new BN(0))`
(over `Nat`: `amount = 0`); for buys it checks affordability only when a
`userBalance` argument was actually supplied; for sells it compares the
requested amount against the total supply. -/
def validateTrade (currentSupply amount : Nat) (isBuy : Bool)
    (userBalance : Option Nat) : ValidationResult :=
  if amount = 0 then
    { isValid := false, error := some "Amount must be greater than 0" }
  else if isBuy then
    match userBalance with
    | some balance =>
        if balance < (calculateBuyPrice currentSupply amount).totalCost then
          { isValid := false, error := some "Insufficient funds" }
        else
          { isValid := true, error := none }
    | none => { isValid := true, error := none }
  else
    if currentSupply < amount then
      { isValid := false, error := some "Cannot sell more keys than supply" }
    else
      { isValid := true, error := none }

end BondingCurve

namespace BondingCurve

/-- One unrolling of the buy loop from the front: buying `k + 1` keys at
supply `s` costs the key at supply `s` plus `k` further keys at supply
`s + 1`. -/
theorem buyRaw_succ_front (s k : Nat) :
    buyRaw s (k + 1) = buyRaw (s + 1) k + getCurrentKeyPrice s := by
  induction k with
  | zero => simp [buyRaw]
  | succ k ih =>
      have h1 : buyRaw s (k + 1 + 1)
          = buyRaw s (k + 1) + getCurrentKeyPrice (s + (k + 1)) := rfl
      have h2 : buyRaw (s + 1) (k + 1)
          = buyRaw (s + 1) k + getCurrentKeyPrice (s + 1 + k) := rfl
      have h3 : s + (k + 1) = s + 1 + k := by omega
      rw [h1, ih, h2, h3]
      omega

/-- The sell total at supply `s + n` for `n` keys equals the buy total at
supply `s` for `n` keys: both sum the marginal price over supplies
`s, ..., s + n - 1`. -/
theorem sellRaw_buyRaw (n : Nat) : ∀ s : Nat, sellRaw (s + n) n = buyRaw s n := by
  induction n with
  | zero => intro s; rfl
  | succ n ih =>
      intro s
      have h1 : sellRaw (s + (n + 1)) (n + 1)
          = sellRaw (s + (n + 1)) n + getCurrentKeyPrice (s + (n + 1) - (n + 1)) := rfl
      have h2 : s + (n + 1) - (n + 1) = s := by omega
      have h3 : s + (n + 1) = (s + 1) + n := by omega
      rw [h1, h2, h3, ih (s + 1), ← buyRaw_succ_front]

end BondingCurve

namespace BondingCurve

/-- Helper: a 5% fee floored at percent precision equals a 500-basis-point
fee floored at basis-point precision, because `a * 500 / 10000`
cancels a common factor of 100. -/
theorem five_percent_eq_500bp (a : Nat) : a * 5 / 100 = a * 500 / 10000 := by
  have h : a * 500 / 10000 = (a * 5) * 100 / (100 * 100) := by ring_nf
  rw [h, Nat.mul_div_mul_right]
  omega

end BondingCurve

/-- C2: for every `supply ≥ 0` and `n ≥ 1`, the raw sell total computed at
`supply + n` for `n` keys equals the raw buy total computed at `supply` for
`n` keys: `calculateSellPrice(supply + n, n).price ==
calculateBuyPrice(supply, n).price`. -/
theorem BondingCurve.c2_sell_inverts_buy (supply n : Nat) (h : 1 ≤ n) :
    (calculateSellPrice (supply + n) n).price = (calculateBuyPrice supply n).price := by
  simp only [calculateSellPrice, calculateBuyPrice]
  exact sellRaw_buyRaw n supply

/-- Witness for C2 at `supply = 3`, `n = 2`. -/
theorem BondingCurve.c2_witness :
    (1 : Nat) ≤ 2 ∧
      (calculateSellPrice (3 + 2) 2).price = (calculateBuyPrice 3 2).price :=
  ⟨by decide, c2_sell_inverts_buy 3 2 (by decide)⟩

/-- C3: the marginal-price function is non-decreasing in supply: for every
`s ≥ 0`, `getCurrentKeyPrice (s+1) ≥ getCurrentKeyPrice s`, computed with
integer (fixed-point) arithmetic only. -/
theorem BondingCurve.c3_marginal_price_monotone (s : Nat) :
    getCurrentKeyPrice s ≤ getCurrentKeyPrice (s + 1) := by
  unfold getCurrentKeyPrice
  have hmul : s * PRICE_INCREMENT ≤ (s + 1) * PRICE_INCREMENT :=
    Nat.mul_le_mul_right _ (by omega)
  exact Nat.add_le_add_left (Nat.div_le_div_right hmul) _

/-- C4: for every `supply ≥ 0` and `amount ≥ 1`, the total cost of a buy is
the raw curve price plus the two floored basis-point fees,
`raw + floor(raw * 500 / 10000) + floor(raw * 500 / 10000)`, with
`protocolFeeBp = creatorFeeBp = 500` protocol-wide constants. -/
theorem BondingCurve.c4_fee_conservation (supply amount : Nat) (h : 1 ≤ amount) :
    (calculateBuyPrice supply amount).totalCost
      = (calculateBuyPrice supply amount).price
        + (calculateBuyPrice supply amount).price * protocolFeeBp / 10000
        + (calculateBuyPrice supply amount).price * creatorFeeBp / 10000 := by
  simp only [calculateBuyPrice, protocolFeeBp, creatorFeeBp,
    PROTOCOL_FEE_PERCENT, CREATOR_FEE_PERCENT, FEE_DIVISOR]
  rw [← five_percent_eq_500bp]

/-- Witness for C4 at `supply = 2`, `amount = 3`. -/
theorem BondingCurve.c4_witness :
    (1 : Nat) ≤ 3 ∧
      (calculateBuyPrice 2 3).totalCost
        = (calculateBuyPrice 2 3).price
          + (calculateBuyPrice 2 3).price * protocolFeeBp / 10000
          + (calculateBuyPrice 2 3).price * creatorFeeBp / 10000 :=
  ⟨by decide, c4_fee_conservation 2 3 (by decide)⟩

/-- C9: for every `supply ≥ 0`, `calculateMarketCap supply` equals the raw
pre-fee cumulative buy cost of `supply` keys starting from supply `0`,
`calculateBuyPrice(0, supply).price`: the two independent summation loops
compute the same value. -/
theorem BondingCurve.c9_marketCap_refines_buy (supply : Nat) :
    calculateMarketCap supply = (calculateBuyPrice 0 supply).price := by
  have key : ∀ k, marketCapLoop k = buyRaw 0 k := by
    intro k
    induction k with
    | zero => rfl
    | succ k ih => simp [marketCapLoop, buyRaw, ih]
  unfold calculateMarketCap
  by_cases h : supply = 0
  · subst h
    simp [calculateBuyPrice, buyRaw]
  · simp [h, key, calculateBuyPrice]

/-- C10: when no `userBalance` argument is supplied, `validateTrade`
approves every buy with positive amount regardless of cost: the
insufficient-funds check runs only when a balance is passed. -/
theorem BondingCurve.c10_validate_buy_without_balance (currentSupply amount : Nat)
    (h : 0 < amount) :
    validateTrade currentSupply amount true none
      = { isValid := true, error := none } := by
  unfold validateTrade
  have hne : ¬ amount = 0 := by omega
  simp [hne]

/-- Witness for C10 at `currentSupply = 7`, `amount = 5`: the trade is
approved with no balance supplied, although buying five keys costs more
than zero lamports. -/
theorem BondingCurve.c10_witness :
    (0 : Nat) < 5 ∧
      validateTrade 7 5 true none = { isValid := true, error := none } :=
  ⟨by decide, c10_validate_buy_without_balance 7 5 (by decide)⟩

namespace SolSocialClient

/-- Loop of `SolSocialProgram.getKeyPrice` (client program wrapper): the
quadratic curve `price = floor(currentSupply^2 / 16000)` summed per key,
where key `i` is priced at `supply + i` for buys and `supply - i - 1` for
sells.  The source computes with JS `number`, which is exact on the integer
ranges exercised here; `Nat` subtraction truncates at zero where the source
would go negative (sells with `i ≥ supply`), a domain no property below
touches. -/
def getKeyPriceLoop (supply : Nat) (isBuy : Bool) : Nat → Nat
  | 0 => 0
  | k + 1 =>
      getKeyPriceLoop supply isBuy k +
        (if isBuy then (supply + k) * (supply + k) / 16000
         else (supply - (k + 1)) * (supply - (k + 1)) / 16000)

/-- Embedding of `SolSocialProgram.getKeyPrice`: total of the quadratic
per-key prices over `amount` keys. -/
def getKeyPrice (supply amount : Nat) (isBuy : Bool) : Nat :=
  getKeyPriceLoop supply isBuy amount

end SolSocialClient

/-- C6 (code bug): buying `amount = 1` against a fresh ledger with
`totalSupply = 0` is priced `floor(0^2 / 16000) = 0` by the client pricer
`SolSocialProgram.getKeyPrice`, so the recorded price of the first key is
zero there, while the bonding-curve utility `calculateBuyPrice` prices the
first key strictly positive (1,000,000 lamports) as the claim, the spec
scenario and the repository's own test require. -/
theorem SolSocialClient.c6_first_key_price :
    getKeyPrice 0 1 true = 0 ∧ 0 < (BondingCurve.calculateBuyPrice 0 1).price := by
  decide

namespace CheckedU64

/-- Modelled from the spec: the on-chain trade program is absent from
`src/` (only its tests and client wrappers are present); the spec requires
its price accumulation to run in checked machine integers and to surface
overflow as an `ArithmeticError` instead of wrapping silently.  This is the
arithmetic error type, with overflow its only case. -/
inductive ArithmeticError where
  | overflow
  deriving Repr, DecidableEq

/-- Modelled from the spec: the `u64` overflow bound of the ledger's
machine integers. -/
def U64_MOD : Nat := 2 ^ 64

/-- Modelled from the spec: checked `u64` addition, erroring out instead of
wrapping when the exact sum does not fit. -/
def checkedAdd (a b : Nat) : Except ArithmeticError Nat :=
  if a + b < U64_MOD then .ok (a + b) else .error .overflow

/-- Modelled from the spec: checked `u64` multiplication. -/
def checkedMul (a b : Nat) : Except ArithmeticError Nat :=
  if a * b < U64_MOD then .ok (a * b) else .error .overflow

/-- Modelled from the spec: the marginal key price
`BASE_PRICE + supply * PRICE_INCREMENT / DIVISOR` computed with checked
`u64` operations (floor division cannot overflow). -/
def checkedKeyPrice (s : Nat) : Except ArithmeticError Nat :=
  match checkedMul s BondingCurve.PRICE_INCREMENT with
  | .error e => .error e
  | .ok m => checkedAdd BondingCurve.BASE_PRICE (m / BondingCurve.DIVISOR)

/-- Modelled from the spec: the per-key price accumulation of a buy of
`amount` keys at the given supply, every addition checked. -/
def checkedBuyRaw (supply : Nat) : Nat → Except ArithmeticError Nat
  | 0 => .ok 0
  | k + 1 =>
      match checkedBuyRaw supply k with
      | .error e => .error e
      | .ok acc =>
          match checkedKeyPrice (supply + k) with
          | .error e => .error e
          | .ok p => checkedAdd acc p

/-- Modelled from the spec: the total buy cost — raw curve total plus the
two floored fees — with every multiplication and addition checked. -/
def checkedBuyTotalCost (supply amount : Nat) : Except ArithmeticError Nat :=
  match checkedBuyRaw supply amount with
  | .error e => .error e
  | .ok raw =>
      match checkedMul raw BondingCurve.PROTOCOL_FEE_PERCENT with
      | .error e => .error e
      | .ok pf =>
          match checkedMul raw BondingCurve.CREATOR_FEE_PERCENT with
          | .error e => .error e
          | .ok cf =>
              match checkedAdd raw (pf / BondingCurve.FEE_DIVISOR) with
              | .error e => .error e
              | .ok t => checkedAdd t (cf / BondingCurve.FEE_DIVISOR)

/-- Successful checked addition returns the exact sum, which fits in a
`u64`. -/
theorem checkedAdd_ok {a b v : Nat} (h : checkedAdd a b = .ok v) :
    v = a + b ∧ a + b < U64_MOD := by
  unfold checkedAdd at h
  by_cases hlt : a + b < U64_MOD
  · simp [hlt] at h
    exact ⟨h.symm, hlt⟩
  · simp [hlt] at h

/-- Successful checked multiplication returns the exact product, which fits
in a `u64`. -/
theorem checkedMul_ok {a b v : Nat} (h : checkedMul a b = .ok v) :
    v = a * b ∧ a * b < U64_MOD := by
  unfold checkedMul at h
  by_cases hlt : a * b < U64_MOD
  · simp [hlt] at h
    exact ⟨h.symm, hlt⟩
  · simp [hlt] at h

/-- A successful checked key price is the exact marginal price of the
curve. -/
theorem checkedKeyPrice_ok {s v : Nat} (h : checkedKeyPrice s = .ok v) :
    v = BondingCurve.getCurrentKeyPrice s ∧ v < U64_MOD := by
  unfold checkedKeyPrice at h
  split at h
  · injection h
  · rename_i m hm
    obtain ⟨hmv, _⟩ := checkedMul_ok hm
    obtain ⟨hv, hlt⟩ := checkedAdd_ok h
    subst hmv
    exact ⟨by rw [hv]; rfl, by omega⟩

/-- A successful checked accumulation is the exact raw buy total of the
curve, and fits in a `u64`. -/
theorem checkedBuyRaw_ok {supply n v : Nat} (h : checkedBuyRaw supply n = .ok v) :
    v = BondingCurve.buyRaw supply n ∧ v < U64_MOD := by
  induction n generalizing v with
  | zero =>
      simp [checkedBuyRaw] at h
      subst h
      exact ⟨rfl, by norm_num [U64_MOD]⟩
  | succ k ih =>
      unfold checkedBuyRaw at h
      split at h
      · injection h
      · rename_i acc hacc
        split at h
        · injection h
        · rename_i p hp
          obtain ⟨hav, halt⟩ := ih hacc
          obtain ⟨hpv, hplt⟩ := checkedKeyPrice_ok hp
          obtain ⟨hv, hlt⟩ := checkedAdd_ok h
          subst hav hpv
          exact ⟨by rw [hv]; rfl, by omega⟩

/-- Explicit form of the buy total cost of the embedded pricing engine. -/
theorem totalCost_eq (supply amount : Nat) :
    (BondingCurve.calculateBuyPrice supply amount).totalCost
      = BondingCurve.buyRaw supply amount
        + BondingCurve.buyRaw supply amount * BondingCurve.PROTOCOL_FEE_PERCENT
            / BondingCurve.FEE_DIVISOR
        + BondingCurve.buyRaw supply amount * BondingCurve.CREATOR_FEE_PERCENT
            / BondingCurve.FEE_DIVISOR := rfl

end CheckedU64

/-- C7: arithmetic overflow during price accumulation produces an
`ArithmeticError` rather than silently wrapping, for every supply and
amount: a successful checked total always equals the exact unbounded total
cost (so no wrapped value can ever be returned), and whenever the exact raw
price exceeds the `u64` range the checked computation returns
`ArithmeticError.overflow`. -/
theorem CheckedU64.c7_overflow_is_error (supply amount : Nat) :
    (∀ v, checkedBuyTotalCost supply amount = .ok v →
        v = (BondingCurve.calculateBuyPrice supply amount).totalCost) ∧
      (U64_MOD ≤ (BondingCurve.calculateBuyPrice supply amount).price →
        checkedBuyTotalCost supply amount = .error .overflow) := by
  constructor
  · intro v h
    unfold checkedBuyTotalCost at h
    split at h
    · injection h
    · rename_i raw hraw
      split at h
      · injection h
      · rename_i pf hpf
        split at h
        · injection h
        · rename_i cf hcf
          split at h
          · injection h
          · rename_i t ht
            obtain ⟨hrv, _⟩ := checkedBuyRaw_ok hraw
            obtain ⟨hpfv, _⟩ := checkedMul_ok hpf
            obtain ⟨hcfv, _⟩ := checkedMul_ok hcf
            obtain ⟨htv, _⟩ := checkedAdd_ok ht
            obtain ⟨hv, _⟩ := checkedAdd_ok h
            rw [totalCost_eq, hv, htv, hcfv, hpfv, hrv]
  · intro hbig
    have hprice : (BondingCurve.calculateBuyPrice supply amount).price
        = BondingCurve.buyRaw supply amount := rfl
    rw [hprice] at hbig
    unfold checkedBuyTotalCost
    cases hraw : checkedBuyRaw supply amount with
    | error e =>
        cases e
        rfl
    | ok raw =>
        obtain ⟨hrv, hrlt⟩ := checkedBuyRaw_ok hraw
        omega

/-- Witness for C7: the exact-total direction at `supply = 0`,
`amount = 1` (total cost 1,100,000 lamports), and the overflow direction at
the huge supply `2 ^ 70`, where the raw price of a single key already
exceeds the `u64` range. -/
theorem CheckedU64.c7_witness :
    (1100000 : Nat) = (BondingCurve.calculateBuyPrice 0 1).totalCost ∧
      checkedBuyTotalCost (2 ^ 70) 1 = .error .overflow :=
  ⟨(c7_overflow_is_error 0 1).1 1100000 (by rfl),
   (c7_overflow_is_error (2 ^ 70) 1).2 (by decide)⟩

namespace TradeExecutor

/-- Modelled from the spec: the on-chain trade program that owns the
per-creator key ledger is absent from `src/` (only its Anchor tests and
client wrappers are present).  `KeyLedger` follows the spec's data model:
supply, cumulative volume, creator earnings, protocol earnings. -/
structure KeyLedger where
  creator : Nat
  totalSupply : Nat
  totalVolume : Nat
  creatorEarnings : Nat
  protocolEarnings : Nat
  deriving Repr, DecidableEq

/-- Modelled from the spec: a per-creator, per-holder balance of keys;
identities are opaque values, modelled as `Nat`. -/
structure HolderRecord where
  holder : Nat
  amount : Nat
  deriving Repr, DecidableEq

/-- Modelled from the spec: the single shared mutable resource for one
creator — the key ledger together with its holder ledger. -/
structure CoreState where
  ledger : KeyLedger
  holders : List HolderRecord
  deriving Repr, DecidableEq

/-- Modelled from the spec: the validation / economic failure taxonomy of
the trade executor. -/
inductive TradeError where
  | amountNotPositive
  | insufficientKeys
  | insufficientFunds
  | slippageExceeded
  | holderCapacityExceeded
  deriving Repr, DecidableEq

/-- Modelled from the spec: the ephemeral receipt of a committed trade
(the spec's timestamp field carries no invariant and is omitted). -/
structure TradeReceipt where
  newSupply : Nat
  rawPrice : Nat
  protocolFee : Nat
  creatorFee : Nat
  totalAmount : Nat
  isBuy : Bool
  deriving Repr, DecidableEq

/-- Amount of keys a holder owns of this creator: the spec's `getHolding`,
zero when no record exists. -/
def holderAmount : List HolderRecord → Nat → Nat
  | [], _ => 0
  | r :: rs, who => if r.holder = who then r.amount else holderAmount rs who

/-- Sum of all holder record amounts of one creator. -/
def sumAmounts : List HolderRecord → Nat
  | [] => 0
  | r :: rs => r.amount + sumAmounts rs

/-- Credit `a` keys to a holder: increment an existing record, or create
one lazily on first buy. -/
def addHolder : List HolderRecord → Nat → Nat → List HolderRecord
  | [], who, a => [⟨who, a⟩]
  | r :: rs, who, a =>
      if r.holder = who then ⟨who, r.amount + a⟩ :: rs
      else r :: addHolder rs who a

/-- Debit `a` keys from a holder: decrement the record, removing it when
the amount reaches zero (a zero record is logically absent). -/
def subHolder : List HolderRecord → Nat → Nat → List HolderRecord
  | [], _, _ => []
  | r :: rs, who, a =>
      if r.holder = who then
        if r.amount - a = 0 then rs else ⟨who, r.amount - a⟩ :: rs
      else r :: subHolder rs who a

/-- Modelled from the spec: the trade executor's buy path
(Validate → Price → Settle → Record).  Validation rejects a zero amount
and, for a brand-new holder, a full holder ledger; pricing uses the
embedded pricing engine; settlement rejects costs above the slippage bound
or the trader's balance; recording updates supply, volume, earnings and
the holder record atomically and emits a receipt.  Any failure returns a
typed error and, the executor being a pure function from state to state,
leaves the caller's state untouched. -/
def buyKeys (maxHolders : Nat) (st : CoreState)
    (trader amount maxTotalCost balance : Nat) :
    Except TradeError (CoreState × TradeReceipt) :=
  if amount = 0 then .error .amountNotPositive
  else if holderAmount st.holders trader = 0 ∧ maxHolders ≤ st.holders.length then
    .error .holderCapacityExceeded
  else if maxTotalCost
      < (BondingCurve.calculateBuyPrice st.ledger.totalSupply amount).totalCost then
    .error .slippageExceeded
  else if balance
      < (BondingCurve.calculateBuyPrice st.ledger.totalSupply amount).totalCost then
    .error .insufficientFunds
  else
    .ok
      ({ ledger :=
          { st.ledger with
            totalSupply := st.ledger.totalSupply + amount
            totalVolume := st.ledger.totalVolume
              + (BondingCurve.calculateBuyPrice st.ledger.totalSupply amount).price
            creatorEarnings := st.ledger.creatorEarnings
              + (BondingCurve.calculateBuyPrice st.ledger.totalSupply amount).creatorFee
            protocolEarnings := st.ledger.protocolEarnings
              + (BondingCurve.calculateBuyPrice st.ledger.totalSupply amount).protocolFee }
         holders := addHolder st.holders trader amount },
       { newSupply := st.ledger.totalSupply + amount
         rawPrice := (BondingCurve.calculateBuyPrice st.ledger.totalSupply amount).price
         protocolFee := (BondingCurve.calculateBuyPrice st.ledger.totalSupply amount).protocolFee
         creatorFee := (BondingCurve.calculateBuyPrice st.ledger.totalSupply amount).creatorFee
         totalAmount := (BondingCurve.calculateBuyPrice st.ledger.totalSupply amount).totalCost
         isBuy := true })

/-- Modelled from the spec: the trade executor's sell path.  Validation
rejects a zero amount and a request exceeding the holder's current amount
(`InsufficientKeys`); settlement rejects proceeds below the slippage
bound; recording decrements supply and the holder record. -/
def sellKeys (st : CoreState) (trader amount minTotalProceeds : Nat) :
    Except TradeError (CoreState × TradeReceipt) :=
  if amount = 0 then .error .amountNotPositive
  else if holderAmount st.holders trader < amount then .error .insufficientKeys
  else if (BondingCurve.calculateSellPrice st.ledger.totalSupply amount).totalCost
      < minTotalProceeds then
    .error .slippageExceeded
  else
    .ok
      ({ ledger :=
          { st.ledger with
            totalSupply := st.ledger.totalSupply - amount
            totalVolume := st.ledger.totalVolume
              + (BondingCurve.calculateSellPrice st.ledger.totalSupply amount).price
            creatorEarnings := st.ledger.creatorEarnings
              + (BondingCurve.calculateSellPrice st.ledger.totalSupply amount).creatorFee
            protocolEarnings := st.ledger.protocolEarnings
              + (BondingCurve.calculateSellPrice st.ledger.totalSupply amount).protocolFee }
         holders := subHolder st.holders trader amount },
       { newSupply := st.ledger.totalSupply - amount
         rawPrice := (BondingCurve.calculateSellPrice st.ledger.totalSupply amount).price
         protocolFee := (BondingCurve.calculateSellPrice st.ledger.totalSupply amount).protocolFee
         creatorFee := (BondingCurve.calculateSellPrice st.ledger.totalSupply amount).creatorFee
         totalAmount := (BondingCurve.calculateSellPrice st.ledger.totalSupply amount).totalCost
         isBuy := false })

/-- Crediting a holder raises the holder total by exactly the credited
amount. -/
theorem sumAmounts_addHolder (hs : List HolderRecord) (who a : Nat) :
    sumAmounts (addHolder hs who a) = sumAmounts hs + a := by
  induction hs with
  | nil => simp [addHolder, sumAmounts]
  | cons r rs ih =>
      by_cases h : r.holder = who
      · simp [addHolder, h, sumAmounts]
        omega
      · simp [addHolder, h, sumAmounts, ih]
        omega

/-- A single holder's amount never exceeds the holder total. -/
theorem holderAmount_le_sum (hs : List HolderRecord) (who : Nat) :
    holderAmount hs who ≤ sumAmounts hs := by
  induction hs with
  | nil => simp [holderAmount, sumAmounts]
  | cons r rs ih =>
      by_cases h : r.holder = who
      · have hs1 : holderAmount (r :: rs) who = r.amount := by
          simp [holderAmount, h]
        rw [hs1]
        show r.amount ≤ r.amount + sumAmounts rs
        omega
      · have hs1 : holderAmount (r :: rs) who = holderAmount rs who := by
          simp [holderAmount, h]
        rw [hs1]
        show holderAmount rs who ≤ r.amount + sumAmounts rs
        omega

/-- Debiting a covered amount lowers the holder total by exactly that
amount. -/
theorem sumAmounts_subHolder (hs : List HolderRecord) (who a : Nat)
    (hcov : a ≤ holderAmount hs who) :
    sumAmounts (subHolder hs who a) = sumAmounts hs - a := by
  induction hs with
  | nil => simp [subHolder, sumAmounts, holderAmount]
  | cons r rs ih =>
      by_cases h : r.holder = who
      · simp [holderAmount, h] at hcov
        by_cases hz : r.amount - a = 0
        · simp [subHolder, h, hz, sumAmounts]
          omega
        · simp [subHolder, h, hz, sumAmounts]
          omega
      · simp [holderAmount, h] at hcov
        have hle := holderAmount_le_sum rs who
        simp [subHolder, h, sumAmounts, ih hcov]
        omega

end TradeExecutor

/-- C1: after every committed trade against a creator's key ledger, the sum
of all holder record amounts equals the ledger's `totalSupply` — the
invariant is preserved by every successful buy and every successful sell —
and in the concrete scenario a buyer buying `amount = 1` against a fresh
ledger with `totalSupply = 0` commits to `totalSupply = 1` with the buyer's
holder record at amount `1` and a receipt for 1,000,000 lamports raw price. -/
theorem TradeExecutor.c1_supply_holder_consistency :
    (∀ (maxHolders : Nat) (st : CoreState) (trader amount maxCost balance : Nat)
        (res : CoreState × TradeReceipt),
        sumAmounts st.holders = st.ledger.totalSupply →
        buyKeys maxHolders st trader amount maxCost balance = .ok res →
        sumAmounts res.1.holders = res.1.ledger.totalSupply) ∧
      (∀ (st : CoreState) (trader amount minProceeds : Nat)
          (res : CoreState × TradeReceipt),
        sumAmounts st.holders = st.ledger.totalSupply →
        sellKeys st trader amount minProceeds = .ok res →
        sumAmounts res.1.holders = res.1.ledger.totalSupply) ∧
      buyKeys 10 ⟨⟨0, 0, 0, 0, 0⟩, []⟩ 1 1 1100000 2000000
        = .ok (⟨⟨0, 1, 1000000, 50000, 50000⟩, [⟨1, 1⟩]⟩,
               ⟨1, 1000000, 50000, 50000, 1100000, true⟩) := by
  refine ⟨?_, ?_, rfl⟩
  · intro maxHolders st trader amount maxCost balance res hinv h
    unfold buyKeys at h
    split at h
    · injection h
    · split at h
      · injection h
      · split at h
        · injection h
        · split at h
          · injection h
          · injection h with h'
            subst h'
            show sumAmounts (addHolder st.holders trader amount)
              = st.ledger.totalSupply + amount
            rw [sumAmounts_addHolder, hinv]
  · intro st trader amount minProceeds res hinv h
    unfold sellKeys at h
    split at h
    · injection h
    · split at h
      · injection h
      · split at h
        · injection h
        · injection h with h'
          subst h'
          rename_i hnz hkeys hslip
          show sumAmounts (subHolder st.holders trader amount)
            = st.ledger.totalSupply - amount
          rw [sumAmounts_subHolder st.holders trader amount (by omega), hinv]

/-- Witness for C1: the preservation branch applied to the committed
scenario trade, whose post-state has holder sum `1` and supply `1`. -/
theorem TradeExecutor.c1_witness :
    sumAmounts [(⟨1, 1⟩ : HolderRecord)] = 1 :=
  c1_supply_holder_consistency.1 10 ⟨⟨0, 0, 0, 0, 0⟩, []⟩ 1 1 1100000 2000000
    (⟨⟨0, 1, 1000000, 50000, 50000⟩, [⟨1, 1⟩]⟩,
     ⟨1, 1000000, 50000, 50000, 1100000, true⟩)
    rfl rfl

/-- C5: a sell request whose amount exceeds the holder's current key amount
fails validation with `InsufficientKeys`; the executor being a pure
function that returns only a typed error on this path, the caller's ledger
and holder state are untouched. -/
theorem TradeExecutor.c5_insufficient_keys (st : CoreState)
    (trader amount minProceeds : Nat)
    (h : holderAmount st.holders trader < amount) :
    sellKeys st trader amount minProceeds = .error .insufficientKeys := by
  unfold sellKeys
  have hne : ¬ amount = 0 := by omega
  simp [hne, h]

/-- Witness for C5: a holder owning 2 keys attempts to sell 100 and is
rejected with `InsufficientKeys`. -/
theorem TradeExecutor.c5_witness :
    holderAmount [(⟨1, 2⟩ : HolderRecord)] 1 < 100 ∧
      sellKeys ⟨⟨0, 2, 3300000, 165000, 165000⟩, [⟨1, 2⟩]⟩ 1 100 0
        = .error .insufficientKeys :=
  ⟨by decide, c5_insufficient_keys ⟨⟨0, 2, 3300000, 165000, 165000⟩, [⟨1, 2⟩]⟩ 1 100 0
    (by decide)⟩

namespace AccountDirectory

/-- Identities are 32-byte public keys, modelled as their byte lists.  An
address produced by `findProgramAddressSync` is modelled as the seed tuple
itself: the spec's Account Directory contract (§4.1) makes derivation a
deterministic, collision-free function of the seeds, so the seed tuple is
a faithful stand-in for the derived address. -/
def findProgramAddress (seeds : List (List Nat)) : List (List Nat) := seeds

/-- Byte string of the seed literal used by `findChatPDA` and by the
integration test (the four characters of the chat namespace). -/
def chatSeed : List Nat := [99, 104, 97, 116]

/-- Byte string of the seed literal used by `useChat.getChatRoomPDA` (the
nine characters of the chat-room namespace). -/
def chatRoomSeed : List Nat := [99, 104, 97, 116, 95, 114, 111, 111, 109]

/-- Lexicographic strict comparison of two sequences by a numeric key.
With `key = id` on byte lists this is the order of `Buffer.compare`; on
lists of UTF-16 code units it is the JS string `<` operator. -/
def lexLt (key : α → Nat) : List α → List α → Bool
  | [], [] => false
  | [], _ :: _ => true
  | _ :: _, [] => false
  | a :: as, b :: bs =>
      if key a < key b then true
      else if key b < key a then false
      else lexLt key as bs

/-- Strict lexicographic comparison is asymmetric. -/
theorem lexLt_asymm (key : α → Nat) :
    ∀ x y : List α, lexLt key x y = true → lexLt key y x = false := by
  intro x
  induction x with
  | nil =>
      intro y h
      cases y with
      | nil => simp [lexLt] at h
      | cons b bs => simp [lexLt]
  | cons a as ih =>
      intro y h
      cases y with
      | nil => simp [lexLt] at h
      | cons b bs =>
          simp only [lexLt] at h ⊢
          by_cases hab : key a < key b
          · have hba : ¬ key b < key a := by omega
            simp [hab, hba]
          · by_cases hba : key b < key a
            · simp [hab, hba] at h
            · simp [hab, hba] at h ⊢
              exact ih bs h

/-- Two sequences neither of which is lexicographically below the other are
equal, provided the key is injective. -/
theorem lexLt_conn (key : α → Nat) (hinj : ∀ a b, key a = key b → a = b) :
    ∀ x y : List α, lexLt key x y = false → lexLt key y x = false → x = y := by
  intro x
  induction x with
  | nil =>
      intro y h1 h2
      cases y with
      | nil => rfl
      | cons b bs => simp [lexLt] at h1
  | cons a as ih =>
      intro y h1 h2
      cases y with
      | nil => simp [lexLt] at h2
      | cons b bs =>
          simp only [lexLt] at h1 h2
          by_cases hab : key a < key b
          · simp [hab] at h1
          · by_cases hba : key b < key a
            · simp [hab, hba] at h2
            · simp [hab, hba] at h1 h2
              have hk : a = b := hinj a b (by omega)
              rw [hk, ih bs h1 h2]

/-- Embedding of `SolSocialProgram.findChatPDA`: the two identities are
sorted ascending by byte value (`Buffer.compare` through
`Array.prototype.sort`) before the seeds are assembled, so the pair is
swapped exactly when the participant compares below the creator. -/
def findChatPDA (creator participant : List Nat) : List (List Nat) :=
  if lexLt (fun b => b) participant creator then
    findProgramAddress [chatSeed, participant, creator]
  else
    findProgramAddress [chatSeed, creator, participant]

/-- Embedding of the chat PDA derivation inside the integration test
(`createChat` test): the seeds are the two identities in caller order,
with no canonical ordering applied. -/
def testChatPDA (user creator : List Nat) : List (List Nat) :=
  findProgramAddress [chatSeed, user, creator]

end AccountDirectory

namespace AccountDirectory

/-- UTF-16 code units of the base58 alphabet
(digits 1-9, uppercase letters without I and O, lowercase letters without
l) used by `PublicKey.toBase58`; strings are modelled as their code-unit
lists throughout. -/
def base58Alphabet : List Nat :=
  [49, 50, 51, 52, 53, 54, 55, 56, 57,
   65, 66, 67, 68, 69, 70, 71, 72,
   74, 75, 76, 77, 78,
   80, 81, 82, 83, 84, 85, 86, 87, 88, 89, 90,
   97, 98, 99, 100, 101, 102, 103, 104, 105, 106, 107,
   109, 110, 111, 112, 113, 114, 115, 116, 117, 118, 119, 120, 121, 122]

/-- Big-endian base-58 digit expansion by fuel-bounded repeated division;
fuel `n` always suffices because the argument shrinks strictly under
division by 58. -/
def natToBase58Aux : Nat → Nat → List Nat
  | 0, _ => []
  | fuel + 1, n => if n = 0 then [] else natToBase58Aux fuel (n / 58) ++ [n % 58]

/-- Big-endian base-58 digits of a natural number. -/
def natToBase58 (n : Nat) : List Nat := natToBase58Aux n n

/-- Value of a big-endian base-58 digit list. -/
def ofBase58 (ds : List Nat) : Nat := ds.foldl (fun acc d => acc * 58 + d) 0

/-- Value of a byte list read big-endian. -/
def bytesToNat : List Nat → Nat
  | [] => 0
  | b :: bs => b * 256 ^ bs.length + bytesToNat bs

/-- Count of leading zero bytes; each is encoded as the character `'1'`
(code 49). -/
def leadingZeros : List Nat → Nat
  | [] => 0
  | b :: bs => if b = 0 then leadingZeros bs + 1 else 0

/-- Embedding of `PublicKey.toBase58` as a code-unit list: one `'1'` per
leading zero byte, followed by the big-endian base-58 digits of the value
mapped through the alphabet. -/
def toBase58 (bytes : List Nat) : List Nat :=
  List.replicate (leadingZeros bytes) 49
    ++ (natToBase58 (bytesToNat bytes)).map (fun d => base58Alphabet.getD d 0)

/-- Appending one digit multiplies the value by the base and adds the
digit. -/
theorem ofBase58_append_digit (l : List Nat) (d : Nat) :
    ofBase58 (l ++ [d]) = ofBase58 l * 58 + d := by
  unfold ofBase58
  rw [List.foldl_append]
  rfl

/-- With enough fuel the digit expansion is exact: reading it back yields
the original number. -/
theorem natToBase58Aux_eval : ∀ fuel n, n ≤ fuel →
    ofBase58 (natToBase58Aux fuel n) = n := by
  intro fuel
  induction fuel with
  | zero =>
      intro n hn
      have h0 : n = 0 := by omega
      subst h0
      rfl
  | succ fuel ih =>
      intro n hn
      by_cases hz : n = 0
      · subst hz
        rfl
      · have hdiv : n / 58 ≤ fuel := by
          have h1 : n / 58 < n := Nat.div_lt_self (by omega) (by omega)
          omega
        simp only [natToBase58Aux, hz, if_neg, ite_false]
        rw [ofBase58_append_digit, ih _ hdiv]
        omega

/-- Digit expansions determine the number. -/
theorem natToBase58_inj {m n : Nat} (h : natToBase58 m = natToBase58 n) : m = n := by
  have hm := natToBase58Aux_eval m m le_rfl
  have hn := natToBase58Aux_eval n n le_rfl
  unfold natToBase58 at h
  rw [← hm, ← hn, h]

/-- Every produced digit is a valid base-58 digit. -/
theorem natToBase58Aux_lt : ∀ fuel n, ∀ d ∈ natToBase58Aux fuel n, d < 58 := by
  intro fuel
  induction fuel with
  | zero =>
      intro n d hd
      simp [natToBase58Aux] at hd
  | succ fuel ih =>
      intro n d hd
      by_cases hz : n = 0
      · subst hz
        simp [natToBase58Aux] at hd
      · simp only [natToBase58Aux, hz, if_neg, ite_false] at hd
        rcases List.mem_append.mp hd with h1 | h2
        · exact ih _ d h1
        · have : d = n % 58 := by simpa using h2
          omega

/-- The expansion of a positive number is non-empty and its leading digit
is non-zero. -/
theorem natToBase58Aux_head_ne : ∀ fuel n, 1 ≤ n → n ≤ fuel →
    ∃ d ds, natToBase58Aux fuel n = d :: ds ∧ d ≠ 0 := by
  intro fuel
  induction fuel with
  | zero =>
      intro n h1 h2
      omega
  | succ fuel ih =>
      intro n h1 h2
      have hz : ¬ n = 0 := by omega
      simp only [natToBase58Aux, hz, if_neg, ite_false]
      by_cases hlt : n < 58
      · have hq : n / 58 = 0 := Nat.div_eq_of_lt hlt
        rw [hq]
        have haux0 : natToBase58Aux fuel 0 = [] := by
          cases fuel <;> rfl
        rw [haux0]
        exact ⟨n % 58, [], by simp, by omega⟩
      · have hge : 1 ≤ n / 58 := (Nat.one_le_div_iff (by omega)).mpr (by omega)
        have hle : n / 58 ≤ fuel := by
          have := Nat.div_lt_self (show 0 < n by omega) (show 1 < 58 by omega)
          omega
        obtain ⟨d, ds, heq, hne⟩ := ih (n / 58) hge hle
        rw [heq]
        exact ⟨d, ds ++ [n % 58], by simp, hne⟩

end AccountDirectory

namespace AccountDirectory

/-- The alphabet has pairwise distinct entries: looking up two valid digit
values gives equal characters only for equal digits. -/
theorem alph_getD_inj : ∀ i j : Fin 58,
    base58Alphabet.getD i 0 = base58Alphabet.getD j 0 → (i : Nat) = j := by
  decide

/-- No non-zero digit maps to the character `'1'` (code 49), which encodes
only the digit 0 and the leading-zero padding. -/
theorem alph_ne_one : ∀ d : Fin 58, (d : Nat) ≠ 0 → base58Alphabet.getD d 0 ≠ 49 := by
  decide

/-- Mapping valid digit lists through the alphabet is injective. -/
theorem map_alph_inj : ∀ xs ys : List Nat,
    (∀ x ∈ xs, x < 58) → (∀ y ∈ ys, y < 58) →
    xs.map (fun d => base58Alphabet.getD d 0)
      = ys.map (fun d => base58Alphabet.getD d 0) → xs = ys := by
  intro xs
  induction xs with
  | nil =>
      intro ys _ _ h
      cases ys with
      | nil => rfl
      | cons y ys => simp at h
  | cons x xs ih =>
      intro ys hx hy h
      cases ys with
      | nil => simp at h
      | cons y ys =>
          simp only [List.map_cons, List.cons.injEq] at h
          have hx1 : x < 58 := hx x (by simp)
          have hy1 : y < 58 := hy y (by simp)
          have hxy : x = y := alph_getD_inj ⟨x, hx1⟩ ⟨y, hy1⟩ h.1
          rw [hxy, ih ys (fun a ha => hx a (by simp [ha]))
            (fun a ha => hy a (by simp [ha])) h.2]

/-- A string of the shape `'1'^k ++ D`, with `D` not starting in `'1'`, has
a unique decomposition. -/
theorem ones_append_inj : ∀ (k1 k2 : Nat) (D1 D2 : List Nat),
    (∀ t, D1 ≠ 49 :: t) → (∀ t, D2 ≠ 49 :: t) →
    List.replicate k1 49 ++ D1 = List.replicate k2 49 ++ D2 →
    k1 = k2 ∧ D1 = D2 := by
  intro k1
  induction k1 with
  | zero =>
      intro k2 D1 D2 h1 h2 h
      rw [List.replicate_zero, List.nil_append] at h
      cases k2 with
      | zero =>
          rw [List.replicate_zero, List.nil_append] at h
          exact ⟨rfl, h⟩
      | succ k =>
          rw [List.replicate_succ, List.cons_append] at h
          exact absurd h (h1 _)
  | succ k1 ih =>
      intro k2 D1 D2 h1 h2 h
      cases k2 with
      | zero =>
          rw [List.replicate_zero, List.nil_append, List.replicate_succ,
            List.cons_append] at h
          exact absurd h.symm (h2 _)
      | succ k2 =>
          rw [List.replicate_succ, List.cons_append, List.replicate_succ,
            List.cons_append] at h
          have htail := (List.cons.injEq _ _ _ _ ▸ h).2
          obtain ⟨hk, hd⟩ := ih k2 D1 D2 h1 h2 htail
          exact ⟨by omega, hd⟩

/-- The big-endian value of a bounded byte list is below the positional
bound. -/
theorem bytesToNat_lt : ∀ bs : List Nat, (∀ b ∈ bs, b < 256) →
    bytesToNat bs < 256 ^ bs.length := by
  intro bs
  induction bs with
  | nil =>
      intro _
      simp [bytesToNat]
  | cons b bs ih =>
      intro h
      have hb : b < 256 := h b (by simp)
      have hr : bytesToNat bs < 256 ^ bs.length := ih (fun a ha => h a (by simp [ha]))
      simp only [bytesToNat, List.length_cons]
      have h1 : b * 256 ^ bs.length ≤ 255 * 256 ^ bs.length :=
        Nat.mul_le_mul_right _ (by omega)
      have h2 : 256 ^ (bs.length + 1) = 256 * 256 ^ bs.length := by ring
      omega

/-- Euclidean decomposition at a positional bound is unique. -/
theorem mul_bound_cancel (x y r1 r2 X : Nat) (hr1 : r1 < X) (hr2 : r2 < X)
    (h : x * X + r1 = y * X + r2) : x = y ∧ r1 = r2 := by
  have hx : x = y := by
    rcases Nat.lt_trichotomy x y with hlt | heq | hgt
    · have ha : (x + 1) * X ≤ y * X := Nat.mul_le_mul_right _ (by omega)
      have hb : (x + 1) * X = x * X + X := by ring
      omega
    · exact heq
    · have ha : (y + 1) * X ≤ x * X := Nat.mul_le_mul_right _ (by omega)
      have hb : (y + 1) * X = y * X + X := by ring
      omega
  subst hx
  exact ⟨rfl, by omega⟩

/-- The big-endian byte value determines a bounded byte list of known
length. -/
theorem bytesToNat_inj : ∀ xs ys : List Nat, xs.length = ys.length →
    (∀ x ∈ xs, x < 256) → (∀ y ∈ ys, y < 256) →
    bytesToNat xs = bytesToNat ys → xs = ys := by
  intro xs
  induction xs with
  | nil =>
      intro ys hlen _ _ _
      cases ys with
      | nil => rfl
      | cons y ys => simp at hlen
  | cons x xs ih =>
      intro ys hlen hx hy h
      cases ys with
      | nil => simp at hlen
      | cons y ys =>
          simp only [List.length_cons] at hlen
          have hlen2 : xs.length = ys.length := by omega
          simp only [bytesToNat] at h
          rw [hlen2] at h
          have hxlt := bytesToNat_lt xs (fun a ha => hx a (by simp [ha]))
          have hylt := bytesToNat_lt ys (fun a ha => hy a (by simp [ha]))
          rw [hlen2] at hxlt
          obtain ⟨hxy, hrest⟩ := mul_bound_cancel x y _ _ _ hxlt hylt h
          rw [hxy, ih ys hlen2 (fun a ha => hx a (by simp [ha]))
            (fun a ha => hy a (by simp [ha])) hrest]

/-- The digit part of a base58 string never starts with the character
`'1'`. -/
theorem toBase58_digits_head_ne (bytes : List Nat) :
    ∀ t, (natToBase58 (bytesToNat bytes)).map (fun d => base58Alphabet.getD d 0)
      ≠ 49 :: t := by
  intro t h
  by_cases hz : bytesToNat bytes = 0
  · rw [hz] at h
    simp [natToBase58, natToBase58Aux] at h
  · obtain ⟨d, ds, heq, hne⟩ :=
      natToBase58Aux_head_ne (bytesToNat bytes) (bytesToNat bytes) (by omega) le_rfl
    have heq2 : natToBase58 (bytesToNat bytes) = d :: ds := heq
    rw [heq2] at h
    simp only [List.map_cons, List.cons.injEq] at h
    have hd : d < 58 := by
      apply natToBase58Aux_lt (bytesToNat bytes) (bytesToNat bytes) d
      rw [heq]
      simp
    exact alph_ne_one ⟨d, hd⟩ hne h.1

/-- Base58 strings are injective on bounded byte lists of equal length. -/
theorem toBase58_inj (xs ys : List Nat) (hlen : xs.length = ys.length)
    (hx : ∀ b ∈ xs, b < 256) (hy : ∀ b ∈ ys, b < 256)
    (h : toBase58 xs = toBase58 ys) : xs = ys := by
  unfold toBase58 at h
  obtain ⟨hk, hD⟩ := ones_append_inj _ _ _ _
    (toBase58_digits_head_ne xs) (toBase58_digits_head_ne ys) h
  have hdig : natToBase58 (bytesToNat xs) = natToBase58 (bytesToNat ys) :=
    map_alph_inj _ _ (fun d hd => natToBase58Aux_lt _ _ d hd)
      (fun d hd => natToBase58Aux_lt _ _ d hd) hD
  exact bytesToNat_inj xs ys hlen hx hy (natToBase58_inj hdig)

end AccountDirectory

namespace AccountDirectory

/-- Embedding of the room derivation in `useChat.createChatRoom` together
with `getChatRoomPDA`: the participant order is canonicalized by comparing
the identities' base58 strings with the JS string `<` operator, then the
seeds are the chat-room namespace and the two buffers in that order. -/
def createChatRoomPDA (publicKey recipient : List Nat) : List (List Nat) :=
  if lexLt (fun c => c) (toBase58 publicKey) (toBase58 recipient) then
    findProgramAddress [chatRoomSeed, publicKey, recipient]
  else
    findProgramAddress [chatRoomSeed, recipient, publicKey]

/-- A first concrete 32-byte identity. -/
def pkA : List Nat := List.replicate 31 0 ++ [1]

/-- A second, distinct concrete 32-byte identity. -/
def pkB : List Nat := List.replicate 31 0 ++ [2]

end AccountDirectory

/-- C8 counterexample: the claim fails at the integration test's derivation
site, where the chat record address is derived from the two identities in
caller order with no canonical ordering: for the distinct identities `pkA`
and `pkB`, deriving with `(pkA, pkB)` and with `(pkB, pkA)` yields
different addresses. -/
theorem AccountDirectory.c8_counterexample :
    pkA ≠ pkB ∧ testChatPDA pkA pkB ≠ testChatPDA pkB pkA := by
  decide

/-- C8 amended: the two client-library derivation sites canonically order
the identities and are order-insensitive — `findChatPDA` sorts by byte
value and `useChat.createChatRoom` sorts by base58 string, so each yields
the same address under argument swap (for `createChatRoom` on 32-byte
identities) — while the integration test's derivation site passes the
identities unsorted and is order-sensitive. -/
theorem AccountDirectory.c8_library_sites_order_insensitive :
    (∀ a b : List Nat, findChatPDA a b = findChatPDA b a) ∧
      (∀ a b : List Nat, a.length = 32 → b.length = 32 →
        (∀ x ∈ a, x < 256) → (∀ x ∈ b, x < 256) →
        createChatRoomPDA a b = createChatRoomPDA b a) := by
  constructor
  · intro a b
    unfold findChatPDA
    by_cases h1 : lexLt (fun c => c) b a = true
    · have h2 : lexLt (fun c => c) a b = false := lexLt_asymm _ b a h1
      simp [h1, h2]
    · have h1f : lexLt (fun c => c) b a = false := by
        cases hv : lexLt (fun c => c) b a
        · rfl
        · exact absurd hv h1
      by_cases h2 : lexLt (fun c => c) a b = true
      · simp [h1f, h2]
      · have h2f : lexLt (fun c => c) a b = false := by
          cases hv : lexLt (fun c => c) a b
          · rfl
          · exact absurd hv h2
        have hab : a = b := lexLt_conn _ (fun x y hxy => hxy) a b h2f h1f
        rw [hab]
  · intro a b hal hbl hav hbv
    unfold createChatRoomPDA
    by_cases h1 : lexLt (fun c => c) (toBase58 a) (toBase58 b) = true
    · have h2 : lexLt (fun c => c) (toBase58 b) (toBase58 a) = false :=
        lexLt_asymm _ _ _ h1
      simp [h1, h2]
    · have h1f : lexLt (fun c => c) (toBase58 a) (toBase58 b) = false := by
        cases hv : lexLt (fun c => c) (toBase58 a) (toBase58 b)
        · rfl
        · exact absurd hv h1
      by_cases h2 : lexLt (fun c => c) (toBase58 b) (toBase58 a) = true
      · simp [h1f, h2]
      · have h2f : lexLt (fun c => c) (toBase58 b) (toBase58 a) = false := by
          cases hv : lexLt (fun c => c) (toBase58 b) (toBase58 a)
          · rfl
          · exact absurd hv h2
        have hstr : toBase58 a = toBase58 b :=
          lexLt_conn _ (fun x y hxy => hxy) _ _ h1f h2f
        have hab : a = b := toBase58_inj a b (by omega) hav hbv hstr
        rw [hab]

/-- Witness for the amended C8 at the concrete 32-byte identities `pkA`
and `pkB`: the `createChatRoom` site resolves both argument orders to the
same address. -/
theorem AccountDirectory.c8_witness :
    createChatRoomPDA pkA pkB = createChatRoomPDA pkB pkA :=
  c8_library_sites_order_insensitive.2 pkA pkB (by decide) (by decide)
    (by decide) (by decide)
